import Mathlib

/-!
Shallow embedding of the reproto schema compiler, for checking the
natural-language specification against the code.

Each definition is translated from a named source location in the
repository.  Structures whose defining module is not part of the
provided sources are modelled from the specification and marked as
such in their doc comments.
-/

set_option maxHeartbeats 1000000

namespace Reproto

/-! ## Source positions

Modelled from the spec (GLOSSARY, "Span"): a span is a `[start, end)`
byte range in a source buffer.  The merge code in
`src/src/backend/merge.rs` only clones positions around, so the two
byte offsets are all we need.
-/

/-- A source span: byte offsets `[start, stop)`.  Corresponds to the `pos`
values (`f.pos`, `self.pos`) cloned by the merge implementations. -/
structure Pos where
  start : Nat
  stop : Nat
deriving DecidableEq, Repr

/-! ## Data model for the merge algorithm

From the usage in `src/src/backend/merge.rs` together with the spec's
data model (section 3): a field carries an identifier and a span, a
code block is verbatim text with a span, a sub-type carries fields,
code blocks and names.  `Token<T>` wraps a value with its span.
-/

/-- A field token: identifier plus source span (`Token<Field>` as used by
`impl Merge for Vec<Token<Field>>` in `src/src/backend/merge.rs`). -/
structure Field where
  name : String
  pos : Pos
deriving DecidableEq, Repr

/-- A verbatim code block token (`Token<Code>`). -/
structure Code where
  content : String
  pos : Pos
deriving DecidableEq, Repr

/-- A sub-type of an interface (`SubType` in `src/src/backend/merge.rs`
lines 21-28): fields, code blocks and a list of names. -/
structure SubType where
  fields : List Field
  codes : List Code
  names : List String
deriving DecidableEq, Repr

/-- `Token<SubType>`: a sub-type together with its span. -/
structure SubTypeTok where
  pos : Pos
  inner : SubType
deriving DecidableEq, Repr

/-- Body of a `type` declaration (`TypeBody`): fields and code blocks,
per `impl Merge for TypeBody` (`merge.rs` lines 39-45). -/
structure TypeBody where
  fields : List Field
  codes : List Code
deriving DecidableEq, Repr

/-- Body of a `tuple` declaration (`TupleBody`, `merge.rs` lines 47-53). -/
structure TupleBody where
  fields : List Field
  codes : List Code
deriving DecidableEq, Repr

/-- An enum variant: identifier and span.  Modelled from the spec
(section 3, Enum body: ordered list of `Variant`) and the usage
`variant.pos` in `src/reproto_core/src/rp_decl.rs`. -/
structure Variant where
  ident : String
  pos : Pos
deriving DecidableEq, Repr

/-- Body of an `enum` declaration: variants, fields and code blocks.
`impl Merge for EnumBody` (`merge.rs` lines 55-61) merges only the
fields and the code blocks; the variants are not touched by merge. -/
structure EnumBody where
  variants : List Variant
  fields : List Field
  codes : List Code
deriving DecidableEq, Repr

/-- Body of an `interface` declaration (`InterfaceBody`, `merge.rs`
lines 30-37): fields, code blocks, and sub-types keyed by their
discriminator key (a `BTreeMap<K, Token<SubType>>`, embedded as an
association list with distinct keys). -/
structure InterfaceBody where
  fields : List Field
  codes : List Code
  sub_types : List (String × SubTypeTok)
deriving DecidableEq, Repr

/-- A declaration (`Decl` as matched by `impl Merge for Token<Decl>`,
`merge.rs` lines 84-129: `Type`, `Enum`, `Interface`, `Tuple`). -/
inductive Decl where
  | type (body : TypeBody)
  | enum (body : EnumBody)
  | interface (body : InterfaceBody)
  | tuple (body : TupleBody)
deriving DecidableEq, Repr

/-- `Token<Decl>`: a declaration together with its span. -/
structure DeclTok where
  pos : Pos
  inner : Decl
deriving DecidableEq, Repr

/-- The merge error taxonomy relevant to the merge implementations:
`Error::field_conflict(ident, pos_new, pos_existing)`,
`Error::decl_merge(msg, src_pos, dst_pos)` (from
`src/src/backend/merge.rs`), and `ErrorKind::ExtendEnum(msg,
offending_pos, existing_pos)` (from `src/reproto_core/src/rp_decl.rs`). -/
inductive MergeError where
  | fieldConflict (name : String) (posNew : Pos) (posExisting : Pos)
  | declMerge (msg : String) (srcPos : Pos) (dstPos : Pos)
  | extendEnum (msg : String) (offending : Pos) (existing : Pos)
deriving DecidableEq, Repr

/-! The Rust `Merge::merge(&mut self, other) -> Result<()>` mutates the
destination in place and may return early with an error, leaving the
partially merged destination behind.  We embed each merge as a pure
function returning the final destination state together with an
optional error. -/

/-- `impl Merge for Vec<Token<Field>>` (`merge.rs` lines 70-82): walk
the source fields in order; a field whose identifier already occurs in
the destination stops the merge with a `FieldConflict` carrying the new
and the existing spans; otherwise the field is pushed. -/
def fieldsMerge : List Field → List Field → List Field × Option MergeError
  | dest, [] => (dest, none)
  | dest, f :: fs =>
    match dest.find? (fun e => e.name == f.name) with
    | some field => (dest, some (.fieldConflict f.name f.pos field.pos))
    | none => fieldsMerge (dest ++ [f]) fs

/-- `impl Merge for Vec<Token<Code>>` (`merge.rs` lines 63-68): code
blocks append in source order and never conflict. -/
def codesMerge (dest source : List Code) : List Code × Option MergeError :=
  (dest ++ source, none)

/-- `impl Merge for TypeBody` (`merge.rs` lines 39-45): merge fields,
then code blocks. -/
def typeBodyMerge (dest source : TypeBody) : TypeBody × Option MergeError :=
  match fieldsMerge dest.fields source.fields with
  | (fs, some e) => ({ dest with fields := fs }, some e)
  | (fs, none) =>
    match codesMerge dest.codes source.codes with
    | (cs, e) => ({ fields := fs, codes := cs }, e)

/-- `impl Merge for TupleBody` (`merge.rs` lines 47-53). -/
def tupleBodyMerge (dest source : TupleBody) : TupleBody × Option MergeError :=
  match fieldsMerge dest.fields source.fields with
  | (fs, some e) => ({ dest with fields := fs }, some e)
  | (fs, none) =>
    match codesMerge dest.codes source.codes with
    | (cs, e) => ({ fields := fs, codes := cs }, e)

/-- `impl Merge for EnumBody` (`merge.rs` lines 55-61): merge fields,
then code blocks; variants are not merged. -/
def enumBodyMerge (dest source : EnumBody) : EnumBody × Option MergeError :=
  match fieldsMerge dest.fields source.fields with
  | (fs, some e) => ({ dest with fields := fs }, some e)
  | (fs, none) =>
    match codesMerge dest.codes source.codes with
    | (cs, e) => ({ dest with fields := fs, codes := cs }, e)

/-- `impl Merge for SubType` (`merge.rs` lines 21-28): merge fields,
merge code blocks, extend names. -/
def subTypeMerge (dest source : SubType) : SubType × Option MergeError :=
  match fieldsMerge dest.fields source.fields with
  | (fs, some e) => ({ dest with fields := fs }, some e)
  | (fs, none) =>
    match codesMerge dest.codes source.codes with
    | (cs, e) =>
      ({ fields := fs, codes := cs, names := dest.names ++ source.names }, e)

/-- `impl<T> Merge for Token<T>` (`merge.rs` lines 12-19): merge the
inner values, keep the destination span. -/
def subTypeTokMerge (dest source : SubTypeTok) : SubTypeTok × Option MergeError :=
  match subTypeMerge dest.inner source.inner with
  | (m, e) => ({ dest with inner := m }, e)

/-- Key lookup in the association-list embedding of a `BTreeMap`
(first matching entry). -/
def alookup {κ α : Type} [DecidableEq κ] : List (κ × α) → κ → Option α
  | [], _ => none
  | (k', v) :: rest, k => if k' = k then some v else alookup rest k

/-- Replace the value stored at a key; entries at other keys are kept. -/
def areplace {κ α : Type} [DecidableEq κ] (l : List (κ × α)) (k : κ) (m : α) :
    List (κ × α) :=
  l.map fun p => if p.1 = k then (k, m) else p

/-- `impl<K, T> Merge for BTreeMap<K, T>` (`merge.rs` lines 131-149):
for each source entry, insert it when the key is vacant, otherwise
merge into the occupied entry (stopping with that entry partially
merged when the value merge fails). -/
def subTypesMerge : List (String × SubTypeTok) → List (String × SubTypeTok) →
    List (String × SubTypeTok) × Option MergeError
  | dest, [] => (dest, none)
  | dest, (k, v) :: rest =>
    match alookup dest k with
    | none => subTypesMerge (dest ++ [(k, v)]) rest
    | some occupied =>
      match subTypeTokMerge occupied v with
      | (m, some err) => (areplace dest k m, some err)
      | (m, none) => subTypesMerge (areplace dest k m) rest

/-- `impl Merge for InterfaceBody` (`merge.rs` lines 30-37): merge
fields, code blocks, then sub-types. -/
def interfaceBodyMerge (dest source : InterfaceBody) : InterfaceBody × Option MergeError :=
  match fieldsMerge dest.fields source.fields with
  | (fs, some e) => ({ dest with fields := fs }, some e)
  | (fs, none) =>
    match codesMerge dest.codes source.codes with
    | (cs, _) =>
      match subTypesMerge dest.sub_types source.sub_types with
      | (sts, e) => ({ fields := fs, codes := cs, sub_types := sts }, e)

/-- Kind name of a declaration, as used in the `Display`-based message
of `Error::decl_merge` ("Cannot merge {}"). -/
def Decl.kindName : Decl → String
  | .type _ => "type"
  | .enum _ => "enum"
  | .interface _ => "interface"
  | .tuple _ => "tuple"

/-- `impl Merge for Token<Decl>` (`merge.rs` lines 84-129): same-kind
declarations merge their bodies; different kinds stop with a
`DeclMerge` error carrying the source and destination spans, leaving
the destination untouched. -/
def declMerge (dest source : DeclTok) : DeclTok × Option MergeError :=
  let targetPos := dest.pos
  match dest.inner, source.inner with
  | .type b, .type o =>
    match typeBodyMerge b o with
    | (m, e) => ({ dest with inner := .type m }, e)
  | .enum b, .enum o =>
    match enumBodyMerge b o with
    | (m, e) => ({ dest with inner := .enum m }, e)
  | .interface b, .interface o =>
    match interfaceBodyMerge b o with
    | (m, e) => ({ dest with inner := .interface m }, e)
  | .tuple b, .tuple o =>
    match tupleBodyMerge b o with
    | (m, e) => ({ dest with inner := .tuple m }, e)
  | _, _ =>
    (dest, some (.declMerge ("Cannot merge " ++ source.inner.kindName) source.pos targetPos))

/-! ## Lemmas about the field-list merge -/

/-- If the source field names are free of duplicates and disjoint from the
destination, the field merge is the disjoint union, appended in order. -/
theorem fieldsMerge_ok (dest source : List Field)
    (hnd : (source.map Field.name).Nodup)
    (hdisj : ∀ f ∈ source, ∀ e ∈ dest, e.name ≠ f.name) :
    fieldsMerge dest source = (dest ++ source, none) := by
  induction source generalizing dest with
  | nil => simp [fieldsMerge]
  | cons f fs ih =>
    have hnd' : (∀ x ∈ fs, ¬x.name = f.name) ∧ (fs.map Field.name).Nodup := by
      simpa using hnd
    have hfind : dest.find? (fun e => e.name == f.name) = none := by
      rw [List.find?_eq_none]
      intro e he
      simpa using hdisj f (by simp) e he
    rw [fieldsMerge, hfind]
    rw [ih (dest ++ [f])]
    · simp
    · exact hnd'.2
    · intro g hg e he
      rcases List.mem_append.mp he with h | h
      · exact hdisj g (by simp [hg]) e h
      · have hef : e = f := by simpa using h
        intro hEq
        rw [hef] at hEq
        exact hnd'.1 g hg hEq.symm

/-- When the field merge stops with an error, the source splits as
`pre ++ f :: post` where `f` is the first conflicting field: the final
destination is the original destination extended by exactly `pre`, and the
error is a `FieldConflict` naming `f` with the new span and the span of the
already-present field. -/
theorem fieldsMerge_err (dest source : List Field) (err : MergeError)
    (h : (fieldsMerge dest source).2 = some err) :
    ∃ pre f post, source = pre ++ f :: post
      ∧ (fieldsMerge dest source).1 = dest ++ pre
      ∧ ∃ e ∈ dest ++ pre, e.name = f.name
          ∧ err = .fieldConflict f.name f.pos e.pos := by
  induction source generalizing dest with
  | nil => simp [fieldsMerge] at h
  | cons f fs ih =>
    cases hfind : dest.find? (fun e => e.name == f.name) with
    | some e =>
      refine ⟨[], f, fs, by simp, ?_, e, ?_, ?_, ?_⟩
      · simp [fieldsMerge, hfind]
      · simpa using List.mem_of_find?_eq_some hfind
      · simpa using List.find?_some hfind
      · rw [fieldsMerge, hfind] at h
        simp only [Option.some.injEq] at h
        exact h.symm
    | none =>
      rw [fieldsMerge, hfind] at h ⊢
      obtain ⟨pre, g, post, hsplit, hfin, e, he, hname, herr⟩ := ih (dest ++ [f]) h
      exact ⟨f :: pre, g, post, by simp [hsplit], by simpa using hfin,
        e, by simpa using he, hname, herr⟩

/-- C2 counterexample: merging a `type` whose source fields are
`[a, b]` into a destination that already has `b` reports a
`FieldConflict` for `b`, yet the destination has gained the field `a`
from the source — it is not left unchanged. -/
theorem c2_counterexample :
    ((declMerge ⟨⟨0, 5⟩, .type ⟨[⟨"b", ⟨0, 1⟩⟩], []⟩⟩
        ⟨⟨10, 15⟩, .type ⟨[⟨"a", ⟨10, 11⟩⟩, ⟨"b", ⟨12, 13⟩⟩], []⟩⟩).2
      = some (.fieldConflict "b" ⟨12, 13⟩ ⟨0, 1⟩))
    ∧ (declMerge ⟨⟨0, 5⟩, .type ⟨[⟨"b", ⟨0, 1⟩⟩], []⟩⟩
        ⟨⟨10, 15⟩, .type ⟨[⟨"a", ⟨10, 11⟩⟩, ⟨"b", ⟨12, 13⟩⟩], []⟩⟩).1
      = ⟨⟨0, 5⟩, .type ⟨[⟨"b", ⟨0, 1⟩⟩, ⟨"a", ⟨10, 11⟩⟩], []⟩⟩
    ∧ (declMerge ⟨⟨0, 5⟩, .type ⟨[⟨"b", ⟨0, 1⟩⟩], []⟩⟩
        ⟨⟨10, 15⟩, .type ⟨[⟨"a", ⟨10, 11⟩⟩, ⟨"b", ⟨12, 13⟩⟩], []⟩⟩).1
      ≠ ⟨⟨0, 5⟩, .type ⟨[⟨"b", ⟨0, 1⟩⟩], []⟩⟩ := by
  refine ⟨?_, ?_, ?_⟩ <;> decide

/-- C2 (amended): when the field-list merge reports a conflict
diagnostic, the merge stops at the first conflicting source field, and
the destination retains exactly the source fields that preceded the
conflict: the final field list is the original destination followed by
the conflict-free prefix of the source.  (A cross-kind `DeclMerge`
error, by contrast, does leave the destination unchanged.) -/
theorem c2_amended_partial_merge (dest source : List Field) (err : MergeError)
    (h : (fieldsMerge dest source).2 = some err) :
    ∃ pre f post, source = pre ++ f :: post
      ∧ (fieldsMerge dest source).1 = dest ++ pre
      ∧ ∃ e ∈ dest ++ pre, e.name = f.name
          ∧ err = .fieldConflict f.name f.pos e.pos :=
  fieldsMerge_err dest source err h

/-- Witness for the amended C2 theorem at a concrete input. -/
theorem c2_amended_partial_merge_witness :
    ∃ pre f post,
      [Field.mk "a" ⟨10, 11⟩, Field.mk "b" ⟨12, 13⟩] = pre ++ f :: post
      ∧ (fieldsMerge [⟨"b", ⟨0, 1⟩⟩] [⟨"a", ⟨10, 11⟩⟩, ⟨"b", ⟨12, 13⟩⟩]).1
          = [⟨"b", ⟨0, 1⟩⟩] ++ pre
      ∧ ∃ e ∈ [Field.mk "b" ⟨0, 1⟩] ++ pre, e.name = f.name
          ∧ MergeError.fieldConflict "b" ⟨12, 13⟩ ⟨0, 1⟩
              = .fieldConflict f.name f.pos e.pos :=
  c2_amended_partial_merge [⟨"b", ⟨0, 1⟩⟩] [⟨"a", ⟨10, 11⟩⟩, ⟨"b", ⟨12, 13⟩⟩]
    (.fieldConflict "b" ⟨12, 13⟩ ⟨0, 1⟩) (by decide)

/-! ## Enum declaration merge (`src/reproto_core/src/rp_decl.rs`) -/

/-- The `Enum` arm of `impl Merge for RpLoc<RpDecl>`
(`src/reproto_core/src/rp_decl.rs` lines 49-72): merging a source enum
into an existing enum first rejects any source variant, then any source
field, with an `ExtendEnum` error carrying the offending span and the
span of the existing declaration; otherwise the bodies merge (which,
with no source fields, only appends the source code blocks). -/
def rpEnumDeclMerge (destPos : Pos) (dest source : EnumBody) :
    EnumBody × Option MergeError :=
  match source.variants with
  | v :: _ =>
    (dest, some (.extendEnum "cannot extend enum with additional variants" v.pos destPos))
  | [] =>
    match source.fields with
    | f :: _ =>
      (dest, some (.extendEnum "cannot extend enum with additional fields" f.pos destPos))
    | [] => enumBodyMerge dest source

/-- C3: merging a source enum into an existing enum succeeds iff the
source contributes no variants and no fields; on success only the code
blocks merge in; a source variant or field yields `ExtendEnum` with the
span of the first offending variant (resp. field) and the span of the
existing declaration. -/
theorem c3_enum_merge_extend (destPos : Pos) (dest source : EnumBody) :
    ((rpEnumDeclMerge destPos dest source).2 = none
        ↔ source.variants = [] ∧ source.fields = [])
    ∧ (source.variants = [] → source.fields = [] →
        rpEnumDeclMerge destPos dest source
          = ({ dest with codes := dest.codes ++ source.codes }, none))
    ∧ (∀ v vs, source.variants = v :: vs →
        (rpEnumDeclMerge destPos dest source).2
          = some (.extendEnum "cannot extend enum with additional variants" v.pos destPos))
    ∧ (∀ f fs, source.variants = [] → source.fields = f :: fs →
        (rpEnumDeclMerge destPos dest source).2
          = some (.extendEnum "cannot extend enum with additional fields" f.pos destPos)) := by
  refine ⟨?_, ?_, ?_, ?_⟩
  · cases hv : source.variants with
    | cons v vs => simp [rpEnumDeclMerge, hv]
    | nil =>
      cases hf : source.fields with
      | cons f fs => simp [rpEnumDeclMerge, hv, hf]
      | nil => simp [rpEnumDeclMerge, hv, hf, enumBodyMerge, fieldsMerge, codesMerge]
  · intro hv hf
    simp [rpEnumDeclMerge, hv, hf, enumBodyMerge, fieldsMerge, codesMerge]
  · intro v vs hv
    simp [rpEnumDeclMerge, hv]
  · intro f fs hv hf
    simp [rpEnumDeclMerge, hv, hf]

/-- Witness for C3 at concrete inputs: a source enum with one variant
is rejected with `ExtendEnum` at that variant's span; a source with
only code blocks merges, appending the code. -/
theorem c3_enum_merge_extend_witness :
    ((rpEnumDeclMerge ⟨0, 9⟩ ⟨[⟨"A", ⟨1, 2⟩⟩], [], []⟩
        ⟨[⟨"B", ⟨20, 21⟩⟩], [], []⟩).2
      = some (.extendEnum "cannot extend enum with additional variants" ⟨20, 21⟩ ⟨0, 9⟩))
    ∧ rpEnumDeclMerge ⟨0, 9⟩ ⟨[⟨"A", ⟨1, 2⟩⟩], [], [⟨"x", ⟨3, 4⟩⟩]⟩
        ⟨[], [], [⟨"y", ⟨22, 23⟩⟩]⟩
      = (⟨[⟨"A", ⟨1, 2⟩⟩], [], [⟨"x", ⟨3, 4⟩⟩, ⟨"y", ⟨22, 23⟩⟩]⟩, none) :=
  ⟨(c3_enum_merge_extend ⟨0, 9⟩ ⟨[⟨"A", ⟨1, 2⟩⟩], [], []⟩
      ⟨[⟨"B", ⟨20, 21⟩⟩], [], []⟩).2.2.1 ⟨"B", ⟨20, 21⟩⟩ [] rfl,
   (c3_enum_merge_extend ⟨0, 9⟩ ⟨[⟨"A", ⟨1, 2⟩⟩], [], [⟨"x", ⟨3, 4⟩⟩]⟩
      ⟨[], [], [⟨"y", ⟨22, 23⟩⟩]⟩).2.1 rfl rfl⟩

/-! ## Lemmas about the association-list embedding of `BTreeMap` -/

theorem alookup_eq_none_iff {κ α : Type} [DecidableEq κ] (l : List (κ × α)) (k : κ) :
    alookup l k = none ↔ k ∉ l.map Prod.fst := by
  induction l with
  | nil => simp [alookup]
  | cons p rest ih =>
    obtain ⟨k', v⟩ := p
    by_cases h : k' = k
    · subst h
      simp [alookup]
    · simp [alookup, h, ih, Ne.symm h]

theorem alookup_mem {κ α : Type} [DecidableEq κ] {l : List (κ × α)} {k : κ} {v : α}
    (h : alookup l k = some v) : (k, v) ∈ l := by
  induction l with
  | nil => simp [alookup] at h
  | cons p rest ih =>
    obtain ⟨k', v'⟩ := p
    by_cases hk : k' = k
    · subst hk
      simp [alookup] at h
      simp [h]
    · simp [alookup, hk] at h
      simp [ih h]

theorem alookup_append_of_none {κ α : Type} [DecidableEq κ] {l1 : List (κ × α)}
    (l2 : List (κ × α)) {k : κ} (h : alookup l1 k = none) :
    alookup (l1 ++ l2) k = alookup l2 k := by
  induction l1 with
  | nil => simp
  | cons p rest ih =>
    obtain ⟨k', v'⟩ := p
    by_cases hk : k' = k
    · subst hk; simp [alookup] at h
    · simp [alookup, hk] at h ⊢
      exact ih h

theorem alookup_append_of_some {κ α : Type} [DecidableEq κ] {l1 : List (κ × α)}
    (l2 : List (κ × α)) {k : κ} {v : α} (h : alookup l1 k = some v) :
    alookup (l1 ++ l2) k = some v := by
  induction l1 with
  | nil => simp [alookup] at h
  | cons p rest ih =>
    obtain ⟨k', v'⟩ := p
    by_cases hk : k' = k
    · subst hk
      simp [alookup] at h ⊢
      exact h
    · simp [alookup, hk] at h ⊢
      exact ih h

theorem alookup_cons {κ α : Type} [DecidableEq κ] (k0 : κ) (v0 : α)
    (rest : List (κ × α)) (k : κ) :
    alookup ((k0, v0) :: rest) k = if k0 = k then some v0 else alookup rest k :=
  rfl

theorem areplace_cons {κ α : Type} [DecidableEq κ] (k0 : κ) (v0 : α)
    (rest : List (κ × α)) (k : κ) (m : α) :
    areplace ((k0, v0) :: rest) k m
      = (if k0 = k then (k, m) else (k0, v0)) :: areplace rest k m := by
  simp [areplace]

theorem areplace_keys {κ α : Type} [DecidableEq κ] (l : List (κ × α)) (k : κ) (m : α) :
    (areplace l k m).map Prod.fst = l.map Prod.fst := by
  induction l with
  | nil => simp [areplace]
  | cons p rest ih =>
    obtain ⟨k0, v0⟩ := p
    rw [areplace_cons]
    by_cases h : k0 = k
    · rw [if_pos h]
      simpa [h] using ih
    · rw [if_neg h]
      simpa using ih

theorem alookup_areplace_self {κ α : Type} [DecidableEq κ] {l : List (κ × α)} {k : κ}
    {v : α} (m : α) (h : alookup l k = some v) :
    alookup (areplace l k m) k = some m := by
  induction l with
  | nil => simp [alookup] at h
  | cons p rest ih =>
    obtain ⟨k0, v0⟩ := p
    rw [areplace_cons]
    by_cases hk : k0 = k
    · rw [if_pos hk, alookup_cons, if_pos rfl]
    · rw [if_neg hk, alookup_cons, if_neg hk]
      rw [alookup_cons, if_neg hk] at h
      exact ih h

theorem alookup_areplace_ne {κ α : Type} [DecidableEq κ] (l : List (κ × α)) {k k' : κ}
    (m : α) (h : k' ≠ k) :
    alookup (areplace l k m) k' = alookup l k' := by
  induction l with
  | nil => simp [areplace, alookup]
  | cons p rest ih =>
    obtain ⟨k0, v0⟩ := p
    rw [areplace_cons]
    by_cases hk : k0 = k
    · rw [if_pos hk, alookup_cons, if_neg (Ne.symm h), alookup_cons,
        if_neg (fun hc => h (hc.symm.trans hk))]
      exact ih
    · rw [if_neg hk, alookup_cons, alookup_cons]
      by_cases hk' : k0 = k'
      · rw [if_pos hk', if_pos hk']
      · rw [if_neg hk', if_neg hk']
        exact ih

theorem mem_areplace {κ α : Type} [DecidableEq κ] {l : List (κ × α)} {k : κ} {m : α}
    {p : κ × α} (h : p ∈ areplace l k m) :
    p = (k, m) ∨ (p ∈ l ∧ p.1 ≠ k) := by
  obtain ⟨p0, hp0, heq⟩ := List.mem_map.mp h
  by_cases h0 : p0.1 = k
  · left
    rw [← heq]
    simp [h0]
  · right
    rw [← heq]
    simp [h0]
    exact hp0

/-- The fields recorded for a sub-type key: the field list of the
sub-type stored at that key, empty when the key is absent. -/
def subFieldsAt (l : List (String × SubTypeTok)) (k : String) : List Field :=
  match alookup l k with
  | some st => st.inner.fields
  | none => []

theorem subFieldsAt_of_none {l : List (String × SubTypeTok)} {k : String}
    (h : alookup l k = none) : subFieldsAt l k = [] := by
  simp [subFieldsAt, h]

theorem subFieldsAt_of_some {l : List (String × SubTypeTok)} {k : String}
    {st : SubTypeTok} (h : alookup l k = some st) :
    subFieldsAt l k = st.inner.fields := by
  simp [subFieldsAt, h]

theorem subFieldsAt_cons (k0 : String) (v0 : SubTypeTok)
    (rest : List (String × SubTypeTok)) (k : String) :
    subFieldsAt ((k0, v0) :: rest) k
      = if k0 = k then v0.inner.fields else subFieldsAt rest k := by
  by_cases h : k0 = k <;> simp [subFieldsAt, alookup_cons, h]

/-- On duplicate-free, destination-disjoint fields, a sub-type merge is
the component-wise append. -/
theorem subTypeMerge_ok (s1 s2 : SubType)
    (hnd : (s2.fields.map Field.name).Nodup)
    (hdisj : ∀ f ∈ s2.fields, ∀ e ∈ s1.fields, e.name ≠ f.name) :
    subTypeMerge s1 s2
      = (⟨s1.fields ++ s2.fields, s1.codes ++ s2.codes, s1.names ++ s2.names⟩, none) := by
  simp [subTypeMerge, fieldsMerge_ok s1.fields s2.fields hnd hdisj, codesMerge]

/-- Merging two sub-type maps whose per-key field sets are disjoint (and
whose keys and per-sub-type field names are duplicate-free) succeeds, and
the fields recorded at each key afterwards are the destination fields at
that key followed by the source fields at that key. -/
theorem subTypesMerge_ok (dest source : List (String × SubTypeTok))
    (hdk : (dest.map Prod.fst).Nodup)
    (hsk : (source.map Prod.fst).Nodup)
    (hsn : ∀ p ∈ source, (p.2.inner.fields.map Field.name).Nodup)
    (hdisj : ∀ p ∈ dest, ∀ q ∈ source, p.1 = q.1 →
        ∀ f ∈ q.2.inner.fields, ∀ e ∈ p.2.inner.fields, e.name ≠ f.name) :
    (subTypesMerge dest source).2 = none
    ∧ ∀ k, subFieldsAt (subTypesMerge dest source).1 k
        = subFieldsAt dest k ++ subFieldsAt source k := by
  induction source generalizing dest with
  | nil =>
    refine ⟨rfl, fun k => ?_⟩
    simp [subTypesMerge, subFieldsAt, alookup]
  | cons q rest ih =>
    obtain ⟨k, v⟩ := q
    have hsk' : k ∉ rest.map Prod.fst ∧ (rest.map Prod.fst).Nodup := by
      simpa using hsk
    have hrestnone : alookup rest k = none :=
      (alookup_eq_none_iff rest k).mpr hsk'.1
    cases hA : alookup dest k with
    | none =>
      have hknd : k ∉ dest.map Prod.fst := (alookup_eq_none_iff dest k).mp hA
      have hstep : subTypesMerge dest ((k, v) :: rest)
          = subTypesMerge (dest ++ [(k, v)]) rest := by
        simp only [subTypesMerge, hA]
      have hdisj' : ∀ p ∈ dest ++ [(k, v)], ∀ q ∈ rest, p.1 = q.1 →
          ∀ f ∈ q.2.inner.fields, ∀ e ∈ p.2.inner.fields, e.name ≠ f.name := by
        intro p hp q hq hpq
        rcases List.mem_append.mp hp with hpd | hpk
        · exact hdisj p hpd q (List.mem_cons_of_mem _ hq) hpq
        · have hpkv : p = (k, v) := by simpa using hpk
          exfalso
          apply hsk'.1
          have hq1 : q.1 = k := by rw [← hpq, hpkv]
          have hmem := List.mem_map_of_mem Prod.fst hq
          rw [hq1] at hmem
          exact hmem
      obtain ⟨ihe, ihf⟩ := ih (dest ++ [(k, v)])
        (by simpa using List.Nodup.append hdk (by simp)
              (by simpa [List.disjoint_singleton] using hknd))
        hsk'.2
        (fun p hp => hsn p (List.mem_cons_of_mem _ hp))
        hdisj'
      refine ⟨by rw [hstep]; exact ihe, fun k' => ?_⟩
      rw [hstep, ihf k', subFieldsAt_cons]
      by_cases hkk : k = k'
      · subst hkk
        rw [if_pos rfl, subFieldsAt_of_none hA, subFieldsAt_of_none hrestnone]
        have : alookup (dest ++ [(k, v)]) k = some v := by
          rw [alookup_append_of_none _ hA, alookup_cons, if_pos rfl]
        rw [subFieldsAt_of_some this]
        simp
      · rw [if_neg hkk]
        have : alookup (dest ++ [(k, v)]) k' = alookup dest k' := by
          cases hB : alookup dest k' with
          | none =>
            rw [alookup_append_of_none _ hB, alookup_cons, if_neg hkk]
            rfl
          | some w => rw [alookup_append_of_some _ hB]
        simp [subFieldsAt, this]
    | some occ =>
      have hoccmem : (k, occ) ∈ dest := alookup_mem hA
      have hmerge : subTypeMerge occ.inner v.inner
          = (⟨occ.inner.fields ++ v.inner.fields, occ.inner.codes ++ v.inner.codes,
              occ.inner.names ++ v.inner.names⟩, none) :=
        subTypeMerge_ok occ.inner v.inner
          (hsn (k, v) (by simp))
          (hdisj (k, occ) hoccmem (k, v) (by simp) rfl)
      have htok : subTypeTokMerge occ v
          = (⟨occ.pos, ⟨occ.inner.fields ++ v.inner.fields,
              occ.inner.codes ++ v.inner.codes,
              occ.inner.names ++ v.inner.names⟩⟩, none) := by
        simp [subTypeTokMerge, hmerge]
      have hstep : subTypesMerge dest ((k, v) :: rest)
          = subTypesMerge (areplace dest k
              ⟨occ.pos, ⟨occ.inner.fields ++ v.inner.fields,
                occ.inner.codes ++ v.inner.codes,
                occ.inner.names ++ v.inner.names⟩⟩) rest := by
        simp only [subTypesMerge, hA, htok]
      have hdisj' : ∀ p ∈ areplace dest k
          ⟨occ.pos, ⟨occ.inner.fields ++ v.inner.fields,
            occ.inner.codes ++ v.inner.codes,
            occ.inner.names ++ v.inner.names⟩⟩, ∀ q ∈ rest, p.1 = q.1 →
          ∀ f ∈ q.2.inner.fields, ∀ e ∈ p.2.inner.fields, e.name ≠ f.name := by
        intro p hp q hq hpq
        rcases mem_areplace hp with hpk | hpd
        · exfalso
          apply hsk'.1
          have hp1 : p.1 = k := by rw [hpk]
          have hq1 : q.1 = k := by rw [← hpq, hp1]
          have hmem := List.mem_map_of_mem Prod.fst hq
          rw [hq1] at hmem
          exact hmem
        · exact hdisj p hpd.1 q (List.mem_cons_of_mem _ hq) hpq
      obtain ⟨ihe, ihf⟩ := ih (areplace dest k
          ⟨occ.pos, ⟨occ.inner.fields ++ v.inner.fields,
            occ.inner.codes ++ v.inner.codes,
            occ.inner.names ++ v.inner.names⟩⟩)
        (by rw [areplace_keys]; exact hdk)
        hsk'.2
        (fun p hp => hsn p (List.mem_cons_of_mem _ hp))
        hdisj'
      refine ⟨by rw [hstep]; exact ihe, fun k' => ?_⟩
      rw [hstep, ihf k', subFieldsAt_cons]
      by_cases hkk : k = k'
      · subst hkk
        rw [if_pos rfl, subFieldsAt_of_none hrestnone,
          subFieldsAt_of_some (alookup_areplace_self _ hA),
          subFieldsAt_of_some hA]
        simp
      · rw [if_neg hkk]
        have : alookup (areplace dest k
            ⟨occ.pos, ⟨occ.inner.fields ++ v.inner.fields,
              occ.inner.codes ++ v.inner.codes,
              occ.inner.names ++ v.inner.names⟩⟩) k'
            = alookup dest k' :=
          alookup_areplace_ne dest _ (fun hc => hkk hc.symm)
        simp [subFieldsAt, this]

/-! ## Successful body merges -/

theorem typeBodyMerge_ok (b1 b2 : TypeBody)
    (hnd : (b2.fields.map Field.name).Nodup)
    (hdisj : ∀ f ∈ b2.fields, ∀ e ∈ b1.fields, e.name ≠ f.name) :
    typeBodyMerge b1 b2 = (⟨b1.fields ++ b2.fields, b1.codes ++ b2.codes⟩, none) := by
  simp [typeBodyMerge, fieldsMerge_ok b1.fields b2.fields hnd hdisj, codesMerge]

theorem tupleBodyMerge_ok (b1 b2 : TupleBody)
    (hnd : (b2.fields.map Field.name).Nodup)
    (hdisj : ∀ f ∈ b2.fields, ∀ e ∈ b1.fields, e.name ≠ f.name) :
    tupleBodyMerge b1 b2 = (⟨b1.fields ++ b2.fields, b1.codes ++ b2.codes⟩, none) := by
  simp [tupleBodyMerge, fieldsMerge_ok b1.fields b2.fields hnd hdisj, codesMerge]

theorem enumBodyMerge_ok (b1 b2 : EnumBody)
    (hnd : (b2.fields.map Field.name).Nodup)
    (hdisj : ∀ f ∈ b2.fields, ∀ e ∈ b1.fields, e.name ≠ f.name) :
    enumBodyMerge b1 b2
      = (⟨b1.variants, b1.fields ++ b2.fields, b1.codes ++ b2.codes⟩, none) := by
  simp [enumBodyMerge, fieldsMerge_ok b1.fields b2.fields hnd hdisj, codesMerge]

theorem interfaceBodyMerge_ok (b1 b2 : InterfaceBody)
    (hnd : (b2.fields.map Field.name).Nodup)
    (hdisjTop : ∀ f ∈ b2.fields, ∀ e ∈ b1.fields, e.name ≠ f.name)
    (hdk : (b1.sub_types.map Prod.fst).Nodup)
    (hsk : (b2.sub_types.map Prod.fst).Nodup)
    (hsn : ∀ p ∈ b2.sub_types, (p.2.inner.fields.map Field.name).Nodup)
    (hdisjSub : ∀ p ∈ b1.sub_types, ∀ q ∈ b2.sub_types, p.1 = q.1 →
        ∀ f ∈ q.2.inner.fields, ∀ e ∈ p.2.inner.fields, e.name ≠ f.name) :
    (interfaceBodyMerge b1 b2).2 = none
    ∧ (interfaceBodyMerge b1 b2).1.fields = b1.fields ++ b2.fields
    ∧ (interfaceBodyMerge b1 b2).1.codes = b1.codes ++ b2.codes
    ∧ ∀ k, subFieldsAt (interfaceBodyMerge b1 b2).1.sub_types k
        = subFieldsAt b1.sub_types k ++ subFieldsAt b2.sub_types k := by
  obtain ⟨hst, hstf⟩ := subTypesMerge_ok b1.sub_types b2.sub_types hdk hsk hsn hdisjSub
  cases hres : subTypesMerge b1.sub_types b2.sub_types with
  | mk sts e =>
    rw [hres] at hst hstf
    have hall : interfaceBodyMerge b1 b2
        = (⟨b1.fields ++ b2.fields, b1.codes ++ b2.codes, sts⟩, e) := by
      simp [interfaceBodyMerge, fieldsMerge_ok b1.fields b2.fields hnd hdisjTop,
        codesMerge, hres]
    rw [hall]
    exact ⟨hst, rfl, rfl, hstf⟩

/-! ## Declaration-level well-formedness and field views -/

/-- IR invariants 2 and 4 on a declaration (spec section 3): field
identifiers are unique within each container, and interface sub-type
keys are unique. -/
def Decl.wf : Decl → Prop
  | .type b => (b.fields.map Field.name).Nodup
  | .enum b => (b.fields.map Field.name).Nodup
  | .tuple b => (b.fields.map Field.name).Nodup
  | .interface b => (b.fields.map Field.name).Nodup
      ∧ (b.sub_types.map Prod.fst).Nodup
      ∧ ∀ p ∈ b.sub_types, (p.2.inner.fields.map Field.name).Nodup

instance : DecidablePred Decl.wf := fun d => by
  cases d <;> simp only [Decl.wf] <;> infer_instance

/-- Every field identifier occurring anywhere in a declaration: the
declaration's own fields and, for an interface, also the fields of each
sub-type. -/
def Decl.allFieldNames : Decl → List String
  | .type b => b.fields.map Field.name
  | .enum b => b.fields.map Field.name
  | .tuple b => b.fields.map Field.name
  | .interface b => b.fields.map Field.name
      ++ (b.sub_types.map (fun p => p.2.inner.fields.map Field.name)).flatten

/-- The top-level field list of a declaration. -/
def Decl.topFields : Decl → List Field
  | .type b => b.fields
  | .enum b => b.fields
  | .tuple b => b.fields
  | .interface b => b.fields

/-- The fields a declaration stores under a sub-type key (non-interfaces
store none). -/
def Decl.subFields : Decl → String → List Field
  | .interface b, k => subFieldsAt b.sub_types k
  | _, _ => []

/-- C7: for two same-kind declarations satisfying the IR uniqueness
invariants whose field identifier sets (including interface sub-type
fields) are disjoint, merging in either order succeeds, and the two
results carry the same field sets: the top-level field lists are
permutations of each other, and so are the field lists stored under
every sub-type key. -/
theorem c7_merge_commutes_on_disjoint_fields (d1 d2 : DeclTok)
    (hk : d1.inner.kindName = d2.inner.kindName)
    (h1 : d1.inner.wf) (h2 : d2.inner.wf)
    (hdisj : ∀ n ∈ d1.inner.allFieldNames, n ∉ d2.inner.allFieldNames) :
    (declMerge d1 d2).2 = none ∧ (declMerge d2 d1).2 = none
    ∧ ((declMerge d1 d2).1.inner.topFields).Perm
        ((declMerge d2 d1).1.inner.topFields)
    ∧ ∀ k, ((declMerge d1 d2).1.inner.subFields k).Perm
        ((declMerge d2 d1).1.inner.subFields k) := by
  obtain ⟨p1, t1⟩ := d1
  obtain ⟨p2, t2⟩ := d2
  simp only at hk h1 h2 hdisj
  cases t1 with
  | type b1 =>
    cases t2 with
    | enum b2 =>
      simp only [Decl.kindName] at hk
      exact absurd hk (by decide)
    | interface b2 =>
      simp only [Decl.kindName] at hk
      exact absurd hk (by decide)
    | tuple b2 =>
      simp only [Decl.kindName] at hk
      exact absurd hk (by decide)
    | type b2 =>
      simp only [Decl.wf] at h1 h2
      simp only [Decl.allFieldNames] at hdisj
      have h12 : ∀ f ∈ b2.fields, ∀ e ∈ b1.fields, e.name ≠ f.name := by
        intro f hf e he hEq
        apply hdisj e.name (List.mem_map_of_mem _ he)
        rw [hEq]
        exact List.mem_map_of_mem _ hf
      have h21 : ∀ f ∈ b1.fields, ∀ e ∈ b2.fields, e.name ≠ f.name := by
        intro f hf e he hEq
        apply hdisj f.name (List.mem_map_of_mem _ hf)
        rw [← hEq]
        exact List.mem_map_of_mem _ he
      have r12 : declMerge ⟨p1, .type b1⟩ ⟨p2, .type b2⟩
          = (⟨p1, .type ⟨b1.fields ++ b2.fields, b1.codes ++ b2.codes⟩⟩, none) := by
        simp [declMerge, typeBodyMerge_ok b1 b2 h2 h12]
      have r21 : declMerge ⟨p2, .type b2⟩ ⟨p1, .type b1⟩
          = (⟨p2, .type ⟨b2.fields ++ b1.fields, b2.codes ++ b1.codes⟩⟩, none) := by
        simp [declMerge, typeBodyMerge_ok b2 b1 h1 h21]
      refine ⟨by rw [r12], by rw [r21], ?_, ?_⟩
      · rw [r12, r21]
        exact List.perm_append_comm
      · intro k
        rw [r12, r21]
        simp [Decl.subFields]
  | tuple b1 =>
    cases t2 with
    | type b2 =>
      simp only [Decl.kindName] at hk
      exact absurd hk (by decide)
    | enum b2 =>
      simp only [Decl.kindName] at hk
      exact absurd hk (by decide)
    | interface b2 =>
      simp only [Decl.kindName] at hk
      exact absurd hk (by decide)
    | tuple b2 =>
      simp only [Decl.wf] at h1 h2
      simp only [Decl.allFieldNames] at hdisj
      have h12 : ∀ f ∈ b2.fields, ∀ e ∈ b1.fields, e.name ≠ f.name := by
        intro f hf e he hEq
        apply hdisj e.name (List.mem_map_of_mem _ he)
        rw [hEq]
        exact List.mem_map_of_mem _ hf
      have h21 : ∀ f ∈ b1.fields, ∀ e ∈ b2.fields, e.name ≠ f.name := by
        intro f hf e he hEq
        apply hdisj f.name (List.mem_map_of_mem _ hf)
        rw [← hEq]
        exact List.mem_map_of_mem _ he
      have r12 : declMerge ⟨p1, .tuple b1⟩ ⟨p2, .tuple b2⟩
          = (⟨p1, .tuple ⟨b1.fields ++ b2.fields, b1.codes ++ b2.codes⟩⟩, none) := by
        simp [declMerge, tupleBodyMerge_ok b1 b2 h2 h12]
      have r21 : declMerge ⟨p2, .tuple b2⟩ ⟨p1, .tuple b1⟩
          = (⟨p2, .tuple ⟨b2.fields ++ b1.fields, b2.codes ++ b1.codes⟩⟩, none) := by
        simp [declMerge, tupleBodyMerge_ok b2 b1 h1 h21]
      refine ⟨by rw [r12], by rw [r21], ?_, ?_⟩
      · rw [r12, r21]
        exact List.perm_append_comm
      · intro k
        rw [r12, r21]
        simp [Decl.subFields]
  | enum b1 =>
    cases t2 with
    | type b2 =>
      simp only [Decl.kindName] at hk
      exact absurd hk (by decide)
    | interface b2 =>
      simp only [Decl.kindName] at hk
      exact absurd hk (by decide)
    | tuple b2 =>
      simp only [Decl.kindName] at hk
      exact absurd hk (by decide)
    | enum b2 =>
      simp only [Decl.wf] at h1 h2
      simp only [Decl.allFieldNames] at hdisj
      have h12 : ∀ f ∈ b2.fields, ∀ e ∈ b1.fields, e.name ≠ f.name := by
        intro f hf e he hEq
        apply hdisj e.name (List.mem_map_of_mem _ he)
        rw [hEq]
        exact List.mem_map_of_mem _ hf
      have h21 : ∀ f ∈ b1.fields, ∀ e ∈ b2.fields, e.name ≠ f.name := by
        intro f hf e he hEq
        apply hdisj f.name (List.mem_map_of_mem _ hf)
        rw [← hEq]
        exact List.mem_map_of_mem _ he
      have r12 : declMerge ⟨p1, .enum b1⟩ ⟨p2, .enum b2⟩
          = (⟨p1, .enum ⟨b1.variants, b1.fields ++ b2.fields,
              b1.codes ++ b2.codes⟩⟩, none) := by
        simp [declMerge, enumBodyMerge_ok b1 b2 h2 h12]
      have r21 : declMerge ⟨p2, .enum b2⟩ ⟨p1, .enum b1⟩
          = (⟨p2, .enum ⟨b2.variants, b2.fields ++ b1.fields,
              b2.codes ++ b1.codes⟩⟩, none) := by
        simp [declMerge, enumBodyMerge_ok b2 b1 h1 h21]
      refine ⟨by rw [r12], by rw [r21], ?_, ?_⟩
      · rw [r12, r21]
        exact List.perm_append_comm
      · intro k
        rw [r12, r21]
        simp [Decl.subFields]
  | interface b1 =>
    cases t2 with
    | type b2 =>
      simp only [Decl.kindName] at hk
      exact absurd hk (by decide)
    | enum b2 =>
      simp only [Decl.kindName] at hk
      exact absurd hk (by decide)
    | tuple b2 =>
      simp only [Decl.kindName] at hk
      exact absurd hk (by decide)
    | interface b2 =>
      obtain ⟨hnd1, hdk1, hsub1⟩ := h1
      obtain ⟨hnd2, hdk2, hsub2⟩ := h2
      simp only [Decl.allFieldNames] at hdisj
      have hTop12 : ∀ f ∈ b2.fields, ∀ e ∈ b1.fields, e.name ≠ f.name := by
        intro f hf e he hEq
        apply hdisj e.name (List.mem_append_left _ (List.mem_map_of_mem _ he))
        rw [hEq]
        exact List.mem_append_left _ (List.mem_map_of_mem _ hf)
      have hTop21 : ∀ f ∈ b1.fields, ∀ e ∈ b2.fields, e.name ≠ f.name := by
        intro f hf e he hEq
        apply hdisj f.name (List.mem_append_left _ (List.mem_map_of_mem _ hf))
        rw [← hEq]
        exact List.mem_append_left _ (List.mem_map_of_mem _ he)
      have hSubMem1 : ∀ p ∈ b1.sub_types, ∀ e ∈ p.2.inner.fields,
          e.name ∈ (Decl.interface b1).allFieldNames := by
        intro p hp e he
        simp only [Decl.allFieldNames]
        refine List.mem_append_right _ (List.mem_flatten.mpr ?_)
        exact ⟨p.2.inner.fields.map Field.name,
          List.mem_map_of_mem _ hp, List.mem_map_of_mem _ he⟩
      have hSubMem2 : ∀ p ∈ b2.sub_types, ∀ e ∈ p.2.inner.fields,
          e.name ∈ (Decl.interface b2).allFieldNames := by
        intro p hp e he
        simp only [Decl.allFieldNames]
        refine List.mem_append_right _ (List.mem_flatten.mpr ?_)
        exact ⟨p.2.inner.fields.map Field.name,
          List.mem_map_of_mem _ hp, List.mem_map_of_mem _ he⟩
      have hSub12 : ∀ p ∈ b1.sub_types, ∀ q ∈ b2.sub_types, p.1 = q.1 →
          ∀ f ∈ q.2.inner.fields, ∀ e ∈ p.2.inner.fields, e.name ≠ f.name := by
        intro p hp q hq _ f hf e he hEq
        apply hdisj e.name (by simpa [Decl.allFieldNames] using hSubMem1 p hp e he)
        rw [hEq]
        simpa [Decl.allFieldNames] using hSubMem2 q hq f hf
      have hSub21 : ∀ p ∈ b2.sub_types, ∀ q ∈ b1.sub_types, p.1 = q.1 →
          ∀ f ∈ q.2.inner.fields, ∀ e ∈ p.2.inner.fields, e.name ≠ f.name := by
        intro p hp q hq _ f hf e he hEq
        apply hdisj f.name (by simpa [Decl.allFieldNames] using hSubMem1 q hq f hf)
        rw [← hEq]
        simpa [Decl.allFieldNames] using hSubMem2 p hp e he
      obtain ⟨he12, hf12, hc12, hs12⟩ :=
        interfaceBodyMerge_ok b1 b2 hnd2 hTop12 hdk1 hdk2 hsub2 hSub12
      obtain ⟨he21, hf21, hc21, hs21⟩ :=
        interfaceBodyMerge_ok b2 b1 hnd1 hTop21 hdk2 hdk1 hsub1 hSub21
      cases hres12 : interfaceBodyMerge b1 b2 with
      | mk m12 x12 =>
        cases hres21 : interfaceBodyMerge b2 b1 with
        | mk m21 x21 =>
          rw [hres12] at he12 hf12 hc12 hs12
          rw [hres21] at he21 hf21 hc21 hs21
          have r12 : declMerge ⟨p1, .interface b1⟩ ⟨p2, .interface b2⟩
              = (⟨p1, .interface m12⟩, x12) := by
            simp [declMerge, hres12]
          have r21 : declMerge ⟨p2, .interface b2⟩ ⟨p1, .interface b1⟩
              = (⟨p2, .interface m21⟩, x21) := by
            simp [declMerge, hres21]
          refine ⟨by rw [r12]; exact he12, by rw [r21]; exact he21, ?_, ?_⟩
          · rw [r12, r21]
            simp only [Decl.topFields]
            rw [hf12, hf21]
            exact List.perm_append_comm
          · intro k
            rw [r12, r21]
            simp only [Decl.subFields]
            rw [hs12 k, hs21 k]
            exact List.perm_append_comm


/-- Concrete interface declaration used by the C7 witness. -/
def c7d1 : DeclTok :=
  ⟨⟨0, 9⟩, .interface ⟨[⟨"name", ⟨1, 2⟩⟩], [],
    [("Circle", ⟨⟨3, 4⟩, ⟨[⟨"radius", ⟨5, 6⟩⟩], [], ["Circle"]⟩⟩)]⟩⟩

/-- Concrete interface declaration used by the C7 witness. -/
def c7d2 : DeclTok :=
  ⟨⟨10, 19⟩, .interface ⟨[], [],
    [("Circle", ⟨⟨13, 14⟩, ⟨[⟨"area", ⟨15, 16⟩⟩], [], ["circle2"]⟩⟩),
     ("Square", ⟨⟨17, 18⟩, ⟨[⟨"side", ⟨19, 20⟩⟩], [], ["Square"]⟩⟩)]⟩⟩

/-- Witness for C7 at two concrete interface declarations sharing the
sub-type key "Circle" but with disjoint field names. -/
theorem c7_merge_commutes_witness :
    (declMerge c7d1 c7d2).2 = none
    ∧ (declMerge c7d2 c7d1).2 = none
    ∧ ((declMerge c7d1 c7d2).1.inner.topFields).Perm
        ((declMerge c7d2 c7d1).1.inner.topFields)
    ∧ ((declMerge c7d1 c7d2).1.inner.subFields "Circle").Perm
        ((declMerge c7d2 c7d1).1.inner.subFields "Circle") := by
  have h := c7_merge_commutes_on_disjoint_fields c7d1 c7d2
    (by decide) (by decide) (by decide) (by decide)
  exact ⟨h.1, h.2.1, h.2.2.1, h.2.2.2 "Circle"⟩


/-! ## CLI exit codes (`src/src/main.rs`) -/

/-- Classification of CLI failures following the spec's error taxonomy
(section 7).  The code's single error chain does not distinguish these
cases; the classification exists only so the exit-code claim can be
stated per error kind. -/
inductive CliError where
  | user (msg : String)
  | compilation (diags : List String)
  | ioFailure (msg : String)
deriving DecidableEq, Repr

/-- `main` (`src/src/main.rs` lines 117-136): when `entry()` returns an
error the process logs it and exits with code 1; otherwise it exits
with code 0.  No other exit codes occur. -/
def mainExitCode (r : Except CliError Unit) : Nat :=
  match r with
  | .error _ => 1
  | .ok _ => 0

/-- C4 counterexample: a compilation error (non-empty diagnostics) makes
the CLI exit with code 1, not 2; an I/O error also exits with 1, not 3. -/
theorem c4_counterexample :
    mainExitCode (.error (.compilation ["field conflict"])) = 1
    ∧ mainExitCode (.error (.compilation ["field conflict"])) ≠ 2
    ∧ mainExitCode (.error (.ioFailure "read failed")) ≠ 3 := by
  refine ⟨rfl, ?_, ?_⟩ <;> decide

/-- C4 (amended): the CLI exits with code 0 on success, and with code 1
on every error, regardless of whether it is a user, compilation, or I/O
error. -/
theorem c4_exit_codes_amended :
    mainExitCode (.ok ()) = 0 ∧ ∀ e : CliError, mainExitCode (.error e) = 1 :=
  ⟨rfl, fun _ => rfl⟩

/-! ## Go backend output paths (`src/lib/backend-go/src/compiler.rs`) -/

/-- Modelled from the spec: the `EXT` constant lives in the crate root of
`lib/backend-go`, which is not among the provided sources; section 6 of
the spec fixes the Go output extension as `.go`. -/
def goEXT : String := "go"

/-- The stem of a path component: the part before its last `.`
separator, the whole component when it has none. -/
def stemOf (s : String) : String :=
  match s.toList.reverse.dropWhile (fun c => c ≠ '.') with
  | [] => s
  | _ :: beforeDot => String.mk beforeDot.reverse

/-- `RelativePathBuf::set_extension`: replace (or add) the extension of
the final path component.  Paths are embedded as component lists. -/
def setExtension : List String → String → List String
  | [], _ => []
  | [c], ext => [stemOf c ++ "." ++ ext]
  | c :: rest, ext => c :: setExtension rest ext

/-- `Compiler::resolve_full_path` (`src/lib/backend-go/src/compiler.rs`
lines 190-194): `RelativePathBuf::from(package.join("_"))` is the single
component joining the package parts with `_`; `.join("lib")` pushes a
second component; `set_extension(self.ext())` turns it into `lib.go`. -/
def resolve_full_path (package : List String) : List String :=
  setExtension ([String.intercalate "_" package] ++ ["lib"]) goEXT

/-- The output path as the claim states it: a single component naming a
file `<parts joined with _>_lib.go`. -/
def claimedGoFullPath (package : List String) : List String :=
  [String.intercalate "_" package ++ "_lib.go"]

/-- C5 counterexample: for package `a.b` the code resolves the output
path to the directory `a_b` containing `lib.go`, not to a single file
`a_b_lib.go`. -/
theorem c5_counterexample :
    resolve_full_path ["a", "b"] = ["a_b", "lib.go"]
    ∧ claimedGoFullPath ["a", "b"] = ["a_b_lib.go"]
    ∧ resolve_full_path ["a", "b"] ≠ claimedGoFullPath ["a", "b"] := by
  refine ⟨?_, ?_, ?_⟩ <;> decide

/-- C5 (amended): for every Go target package, the resolved output path
is the directory named by the package parts joined with `_`, containing
the file `lib.go`. -/
theorem c5_go_path_amended (package : List String) :
    resolve_full_path package = [String.intercalate "_" package, "lib.go"] := rfl


/-! ## Language-server workspace (`src/lib/languageserver/workspace.rs`) -/

/-- An editor position: line and column (`Position { line, col }`),
ordered lexicographically as by the Rust derived `PartialOrd`. -/
structure Position where
  line : Nat
  col : Nat
deriving DecidableEq, Repr

/-- The lexicographic `<=` on positions. -/
def Position.le (a b : Position) : Prop :=
  a.line < b.line ∨ (a.line = b.line ∧ a.col ≤ b.col)

/-- The lexicographic `<` on positions. -/
def Position.lt (a b : Position) : Prop :=
  a.line < b.line ∨ (a.line = b.line ∧ a.col < b.col)

instance (a b : Position) : Decidable (Position.le a b) := by
  unfold Position.le
  infer_instance

instance (a b : Position) : Decidable (Position.lt a b) := by
  unfold Position.lt
  infer_instance

theorem Position.le_refl (a : Position) : Position.le a a := by
  simp [Position.le]

theorem Position.le_of_lt {a b : Position} (h : Position.lt a b) :
    Position.le a b := by
  obtain ⟨al, ac⟩ := a
  obtain ⟨bl, bc⟩ := b
  simp [Position.lt, Position.le] at h ⊢
  omega

theorem Position.not_le_of_lt {a b : Position} (h : Position.lt a b) :
    ¬Position.le b a := by
  obtain ⟨al, ac⟩ := a
  obtain ⟨bl, bc⟩ := b
  simp [Position.lt, Position.le] at h ⊢
  omega

/-- A recorded range (`Range { start, end }` in `workspace.rs` lines
67-73; the Rust field `end` is called `stop` here). -/
structure Range where
  start : Position
  stop : Position
deriving DecidableEq, Repr

/-- `Range::contains` (`workspace.rs` lines 75-79):
`self.start <= *p && *p <= self.end`. -/
def Range.contains (r : Range) (p : Position) : Prop :=
  Position.le r.start p ∧ Position.le p r.stop

instance (r : Range) (p : Position) : Decidable (Range.contains r p) := by
  unfold Range.contains
  infer_instance

/-- The last element of a list (`Iterator::last` /
`BTreeMap::range(..).next_back()` on the filtered entries). -/
def lastOf {β : Type} : List β → Option β
  | [] => none
  | [x] => some x
  | _ :: y :: rest => lastOf (y :: rest)

theorem lastOf_mem {β : Type} : ∀ {l : List β} {y : β}, lastOf l = some y → y ∈ l := by
  intro l
  induction l with
  | nil => intro y h; simp [lastOf] at h
  | cons a rest ih =>
    intro y h
    cases rest with
    | nil =>
      have : a = y := by simpa [lastOf] using h
      simp [this]
    | cons b rest2 =>
      have h2 : lastOf (b :: rest2) = some y := h
      exact List.mem_cons_of_mem _ (ih h2)

theorem lastOf_isSome_of_ne_nil {β : Type} :
    ∀ {l : List β}, l ≠ [] → ∃ y, lastOf l = some y := by
  intro l
  induction l with
  | nil => intro h; exact absurd rfl h
  | cons a rest ih =>
    intro _
    cases rest with
    | nil => exact ⟨a, rfl⟩
    | cons b rest2 =>
      obtain ⟨y, hy⟩ := ih (by simp)
      exact ⟨y, hy⟩

theorem lastOf_max {β : Type} {R : β → β → Prop} :
    ∀ {l : List β} {y : β}, l.Pairwise R → lastOf l = some y →
      ∀ x ∈ l, x = y ∨ R x y := by
  intro l
  induction l with
  | nil => intro y _ h; simp [lastOf] at h
  | cons a rest ih =>
    intro y hp h x hx
    cases rest with
    | nil =>
      have hay : a = y := by simpa [lastOf] using h
      have hxa : x = a := by simpa using hx
      left
      rw [hxa, hay]
    | cons b rest2 =>
      have h2 : lastOf (b :: rest2) = some y := h
      obtain ⟨hra, hrp⟩ := List.pairwise_cons.mp hp
      rcases List.mem_cons.mp hx with hxa | hxr
      · right
        rw [hxa]
        exact hra y (lastOf_mem h2)
      · exact ih hrp h2 x hxr

/-- The shared range query of `Workspace::find_completion`,
`find_jump` and `find_rename` (`workspace.rs` lines 791-893): take the
last entry of the ordered map whose key (range start) is at most the
query position — `map.range((Unbounded, Included(&end))).next_back()` —
and return its value only when the entry's recorded range contains the
position. -/
def findQuery {α : Type} (entries : List (Position × Range × α)) (p : Position) :
    Option α :=
  match lastOf (entries.filter (fun e => decide (Position.le e.1 p))) with
  | none => none
  | some (_, r, v) => if Range.contains r p then some v else none

/-- The `BTreeMap` invariant on the embedded query maps: entries are in
strictly ascending key order. -/
def mapOrdered {α : Type} (entries : List (Position × Range × α)) : Prop :=
  entries.Pairwise (fun a b => Position.lt a.1 b.1)

instance {α : Type} (entries : List (Position × Range × α)) :
    Decidable (mapOrdered entries) := by
  unfold mapOrdered
  infer_instance

/-- C6: on an ordered query map, the lookup returns exactly the value of
the entry with the largest recorded start at most the query position,
provided that entry's range contains the position; when no such entry
exists the lookup returns nothing. -/
theorem c6_query_largest_start (α : Type) (entries : List (Position × Range × α))
    (p : Position) (v : α) (hs : mapOrdered entries) :
    findQuery entries p = some v
      ↔ ∃ e ∈ entries, Position.le e.1 p ∧ Range.contains e.2.1 p
          ∧ (∀ x ∈ entries, Position.le x.1 p → Position.le x.1 e.1)
          ∧ e.2.2 = v := by
  have hfsub : (entries.filter (fun e => decide (Position.le e.1 p))).Sublist entries :=
    List.filter_sublist _
  have hfp : mapOrdered (entries.filter (fun e => decide (Position.le e.1 p))) :=
    List.Pairwise.sublist hfsub hs
  constructor
  · intro h
    unfold findQuery at h
    cases hL : lastOf (entries.filter (fun e => decide (Position.le e.1 p))) with
    | none => rw [hL] at h; simp at h
    | some y =>
      rw [hL] at h
      obtain ⟨ys, yr, yv⟩ := y
      have h2 : (if Range.contains yr p then some yv else none) = some v := h
      by_cases hc : Range.contains yr p
      · rw [if_pos hc] at h2
        have hyf := lastOf_mem hL
        have hym := List.mem_of_mem_filter hyf
        have hyle : Position.le ys p := by
          simpa using List.of_mem_filter hyf
        refine ⟨(ys, yr, yv), hym, hyle, hc, ?_, by simpa using h2⟩
        intro x hx hxle
        have hxf : x ∈ entries.filter (fun e => decide (Position.le e.1 p)) :=
          List.mem_filter.mpr ⟨hx, by simpa using hxle⟩
        rcases lastOf_max hfp hL x hxf with heq | hlt
        · rw [heq]
          exact Position.le_refl _
        · exact Position.le_of_lt hlt
      · rw [if_neg hc] at h2
        simp at h2
  · rintro ⟨e, he, hle, hcont, hmax, hval⟩
    obtain ⟨es, er, ev⟩ := e
    have hef : (es, er, ev) ∈ entries.filter (fun e => decide (Position.le e.1 p)) :=
      List.mem_filter.mpr ⟨he, by simpa using hle⟩
    have hne : entries.filter (fun e => decide (Position.le e.1 p)) ≠ [] := by
      intro hnil
      rw [hnil] at hef
      simp at hef
    obtain ⟨y, hy⟩ := lastOf_isSome_of_ne_nil hne
    have hyf := lastOf_mem hy
    have hym : y ∈ entries := hfsub.subset hyf
    have hyle : Position.le y.1 p := by
      simpa using List.of_mem_filter hyf
    have hey : (es, er, ev) = y := by
      rcases lastOf_max hfp hy (es, er, ev) hef with heq | hlt
      · exact heq
      · exact absurd (hmax y hym hyle) (Position.not_le_of_lt hlt)
    rw [← hey] at hy
    unfold findQuery
    rw [hy]
    show (if Range.contains er p then some ev else none) = some v
    rw [if_pos hcont]
    simpa using hval

/-- Witness for C6: two recorded ranges; the query position falls in the
second, whose start is the largest at most the position. -/
theorem c6_query_largest_start_witness :
    findQuery [(⟨0, 0⟩, ⟨⟨0, 0⟩, ⟨0, 5⟩⟩, "w1"), (⟨1, 0⟩, ⟨⟨1, 0⟩, ⟨1, 4⟩⟩, "w2")]
      ⟨1, 2⟩ = some "w2" :=
  (c6_query_largest_start String
      [(⟨0, 0⟩, ⟨⟨0, 0⟩, ⟨0, 5⟩⟩, "w1"), (⟨1, 0⟩, ⟨⟨1, 0⟩, ⟨1, 4⟩⟩, "w2")]
      ⟨1, 2⟩ "w2" (by decide)).mpr
    ⟨(⟨1, 0⟩, ⟨⟨1, 0⟩, ⟨1, 4⟩⟩, "w2"), by decide, by decide, by decide,
      by decide, rfl⟩


/-- A type completion (`Completion`, `workspace.rs` lines 39-51).  The
Rust variant `Absolute`'s field named like a package alias is `pfx`
here. -/
inductive Completion where
  | absolute (pfx : Option String) (path : List String) (suffix : Option String)
  | package (results : List String)
  | any
deriving DecidableEq, Repr

/-- A jump target (`Jump`, `workspace.rs` lines 54-65).  The Rust
variant named after a package alias is `aliasDecl` here. -/
inductive Jump where
  | absolute (pfx : Option String) (path : List String)
  | package (pfx : String)
  | aliasDecl (pfx : String)
deriving DecidableEq, Repr

/-- A rename action (`Rename`, `workspace.rs` lines 20-23): rename every
occurrence of a package alias. -/
inductive Rename where
  | aliasOf (pfx : String)
deriving DecidableEq, Repr

/-- The result of `find_rename` (`RenameResult`, lines 26-36). -/
inductive RenameResult where
  | localRanges (ranges : List Range)
  | implicitPackage (ranges : List Range) (position : Position)
deriving DecidableEq, Repr

/-- A loaded file's query indices (`LoadedFile`, `workspace.rs` lines
116-139), restricted to the maps the queries read: `jumps`,
`completions`, `renames` (ordered maps keyed by range start), the
per-alias occurrence lists (`prefix_ranges` in Rust, `aliasRanges`
here), and the non-renamable aliases (`implicit_prefixes` in Rust,
`implicitAliases` here). -/
structure LoadedFile where
  jumps : List (Position × Range × Jump)
  completions : List (Position × Range × Completion)
  renames : List (Position × Range × Rename)
  aliasRanges : List (String × List Range)
  implicitAliases : List (String × Position)
deriving DecidableEq, Repr

/-- The workspace maps the queries consult (`Workspace`, `workspace.rs`
lines 224-242): files loaded through the project, keyed by URL, and
files currently being edited. -/
structure Workspace where
  files : List (String × LoadedFile)
  edited_files : List (String × LoadedFile)
deriving DecidableEq, Repr

/-- `Workspace::file` (`workspace.rs` lines 267-278): the edited entry
when one exists, otherwise the loaded entry. -/
def Workspace.file (w : Workspace) (url : String) : Option LoadedFile :=
  match alookup w.edited_files url with
  | some f => some f
  | none => alookup w.files url

/-- `Workspace::find_completion` (lines 791-819), value part. -/
def Workspace.find_completion (w : Workspace) (url : String) (p : Position) :
    Option Completion :=
  match w.file url with
  | none => none
  | some f => findQuery f.completions p

/-- `Workspace::find_jump` (lines 822-845), value part. -/
def Workspace.find_jump (w : Workspace) (url : String) (p : Position) :
    Option Jump :=
  match w.file url with
  | none => none
  | some f => findQuery f.jumps p

/-- The per-file part of `Workspace::find_rename` (lines 848-893): look
up the rename under the position, then resolve the alias's occurrence
ranges, reporting an implicit package alias when it cannot be renamed. -/
def renameOf (f : LoadedFile) (p : Position) : Option RenameResult :=
  match findQuery f.renames p with
  | none => none
  | some (.aliasOf pfxName) =>
    match alookup f.aliasRanges pfxName with
    | none => none
    | some ranges =>
      match alookup f.implicitAliases pfxName with
      | some position => some (.implicitPackage ranges position)
      | none => some (.localRanges ranges)

/-- `Workspace::find_rename` (lines 848-893). -/
def Workspace.find_rename (w : Workspace) (url : String) (p : Position) :
    Option RenameResult :=
  match w.file url with
  | none => none
  | some f => renameOf f p

/-- C10: when a URL has an edited entry, `Workspace::file` returns it —
even when a loaded entry for the same URL exists — so the completion,
jump and rename queries are all answered from the edited file's
indices; the loaded map is consulted only when no edited entry exists. -/
theorem c10_edited_files_shadow_loaded (w : Workspace) (url : String) (p : Position) :
    (∀ f, alookup w.edited_files url = some f →
      w.file url = some f
      ∧ w.find_completion url p = findQuery f.completions p
      ∧ w.find_jump url p = findQuery f.jumps p
      ∧ w.find_rename url p = renameOf f p)
    ∧ (alookup w.edited_files url = none → w.file url = alookup w.files url) := by
  constructor
  · intro f hf
    have hfile : w.file url = some f := by
      simp [Workspace.file, hf]
    refine ⟨hfile, ?_, ?_, ?_⟩
    · simp [Workspace.find_completion, hfile]
    · simp [Workspace.find_jump, hfile]
    · simp [Workspace.find_rename, hfile]
  · intro h
    simp [Workspace.file, h]

/-- Loaded-from-disk file used by the C10 witness. -/
def c10loaded : LoadedFile :=
  ⟨[], [(⟨0, 0⟩, ⟨⟨0, 0⟩, ⟨0, 5⟩⟩, .any)], [], [], []⟩

/-- Editor-buffer file used by the C10 witness; it indexes the same
region differently from the loaded version. -/
def c10edited : LoadedFile :=
  ⟨[], [(⟨0, 0⟩, ⟨⟨0, 0⟩, ⟨0, 9⟩⟩, .package ["ex"])], [], [], []⟩

/-- Workspace used by the C10 witness: the same URL is present in both
the loaded and the edited map. -/
def c10ws : Workspace :=
  ⟨[("file:///a.reproto", c10loaded)], [("file:///a.reproto", c10edited)]⟩

/-- Witness for C10: with the URL in both maps, the file and all three
queries come from the edited entry. -/
theorem c10_edited_files_shadow_loaded_witness :
    c10ws.file "file:///a.reproto" = some c10edited
    ∧ c10ws.find_completion "file:///a.reproto" ⟨0, 2⟩
        = findQuery c10edited.completions ⟨0, 2⟩
    ∧ c10ws.find_jump "file:///a.reproto" ⟨0, 2⟩
        = findQuery c10edited.jumps ⟨0, 2⟩
    ∧ c10ws.find_rename "file:///a.reproto" ⟨0, 2⟩
        = renameOf c10edited ⟨0, 2⟩ := by
  have h := (c10_edited_files_shadow_loaded c10ws "file:///a.reproto" ⟨0, 2⟩).1
    c10edited (by decide)
  exact ⟨h.1, h.2.1, h.2.2.1, h.2.2.2⟩


/-! ## Import driver: `Workspace::process` (`workspace.rs` lines 339-399) -/

/-- A `(version, source)` pair returned by the resolver (`Resolved`).
Versions are abstracted to naturals ordered by recency (`none` = an
unversioned package, treated as oldest); sources are abstract handles. -/
structure Resolved where
  version : Option Nat
  source : Nat
deriving DecidableEq, Repr

/-- Recency rank of an optional version: an absent version is older than
every present one. -/
def verRank : Option Nat → Nat
  | none => 0
  | some x => x + 1

/-- `a` is at least as new as `b`. -/
def Resolved.newerEq (a b : Resolved) : Prop :=
  verRank b.version ≤ verRank a.version

instance (a b : Resolved) : Decidable (Resolved.newerEq a b) :=
  Nat.decLe _ _

/-- Modelled from the spec (section 4.2): the resolver contract
`resolve(required) -> sequence of (version, source)` ordered
newest-to-oldest within the range.  The resolver implementations live
outside the provided sources. -/
def newestToOldest (rs : List Resolved) : Prop :=
  rs.Pairwise Resolved.newerEq

instance (rs : List Resolved) : Decidable (newestToOldest rs) := by
  unfold newestToOldest
  infer_instance

/-- A required package: package parts plus a version range (opaque). -/
structure RpRequiredPackage where
  package : List String
  range : String
deriving DecidableEq, Repr

/-- A versioned package: package parts plus the version the resolver
chose. -/
structure RpVersionedPackage where
  package : List String
  version : Option Nat
deriving DecidableEq, Repr

/-- The parts of the workspace state `Workspace::process` updates:
`lookup` (required package → versioned package), `packages` (versioned
package → URL), `loaded_files`, and the sources handed to
`inner_process` for parsing.  URLs are identified with the source
handle whose path they are built from. -/
structure WorkspaceState where
  lookup : List (RpRequiredPackage × RpVersionedPackage)
  packages : List (RpVersionedPackage × Nat)
  loaded_files : List Nat
  parsed_sources : List Nat
deriving DecidableEq, Repr

/-- `Workspace::process` (`workspace.rs` lines 339-399): return the
cached versioned package when the required package was already looked
up; otherwise take `resolved.into_iter().last()` — the LAST element of
the resolver's sequence — build the versioned package from its version,
record it in `lookup` and `packages`, mark the URL loaded, and hand the
chosen source to `inner_process` for parsing. -/
def processModel (st : WorkspaceState) (pkg : RpRequiredPackage)
    (resolved : List Resolved) : WorkspaceState × Option RpVersionedPackage :=
  match alookup st.lookup pkg with
  | some v => (st, some v)
  | none =>
    match lastOf resolved with
    | none => (st, none)
    | some r =>
      ({ lookup := st.lookup ++ [(pkg, ⟨pkg.package, r.version⟩)],
         packages := st.packages ++ [(⟨pkg.package, r.version⟩, r.source)],
         loaded_files := st.loaded_files ++ [r.source],
         parsed_sources := st.parsed_sources ++ [r.source] },
       some ⟨pkg.package, r.version⟩)

/-- C1 counterexample: with a resolver sequence obeying the
newest-to-oldest contract — version 2 first, version 1 last — the
driver of imports selects and parses version 1 (the last element),
not the newest version 2 (the first element). -/
theorem c1_counterexample :
    newestToOldest [⟨some 2, 100⟩, ⟨some 1, 101⟩]
    ∧ (processModel ⟨[], [], [], []⟩ ⟨["ex"], "*"⟩
        [⟨some 2, 100⟩, ⟨some 1, 101⟩]).2 = some ⟨["ex"], some 1⟩
    ∧ [Resolved.mk (some 2) 100, ⟨some 1, 101⟩].head? = some ⟨some 2, 100⟩
    ∧ (processModel ⟨[], [], [], []⟩ ⟨["ex"], "*"⟩
        [⟨some 2, 100⟩, ⟨some 1, 101⟩]).2 ≠ some ⟨["ex"], some 2⟩
    ∧ (processModel ⟨[], [], [], []⟩ ⟨["ex"], "*"⟩
        [⟨some 2, 100⟩, ⟨some 1, 101⟩]).1.parsed_sources = [101] := by
  refine ⟨by decide, rfl, rfl, by decide, rfl⟩

/-- C1 (amended): for a package not yet looked up, the import driver
selects the LAST element of the resolver's sequence — the oldest
matching version under the newest-to-oldest contract — and that
version/source is the one recorded for the package and parsed. -/
theorem c1_picks_last_resolved (st : WorkspaceState) (pkg : RpRequiredPackage)
    (resolved : List Resolved) (r : Resolved)
    (hmiss : alookup st.lookup pkg = none)
    (hlast : lastOf resolved = some r) :
    (processModel st pkg resolved).2 = some ⟨pkg.package, r.version⟩
    ∧ (processModel st pkg resolved).1.lookup
        = st.lookup ++ [(pkg, ⟨pkg.package, r.version⟩)]
    ∧ (processModel st pkg resolved).1.packages
        = st.packages ++ [(⟨pkg.package, r.version⟩, r.source)]
    ∧ (processModel st pkg resolved).1.parsed_sources
        = st.parsed_sources ++ [r.source]
    ∧ (newestToOldest resolved → ∀ x ∈ resolved, Resolved.newerEq x r) := by
  refine ⟨?_, ?_, ?_, ?_, ?_⟩
  · simp [processModel, hmiss, hlast]
  · simp [processModel, hmiss, hlast]
  · simp [processModel, hmiss, hlast]
  · simp [processModel, hmiss, hlast]
  · intro hord x hx
    rcases lastOf_max hord hlast x hx with heq | hnew
    · rw [heq]
      exact Nat.le_refl _
    · exact hnew

/-- Witness for the amended C1 theorem at the counterexample input. -/
theorem c1_picks_last_resolved_witness :
    (processModel ⟨[], [], [], []⟩ ⟨["ex"], "*"⟩
        [⟨some 2, 100⟩, ⟨some 1, 101⟩]).2 = some ⟨["ex"], some 1⟩
    ∧ (processModel ⟨[], [], [], []⟩ ⟨["ex"], "*"⟩
        [⟨some 2, 100⟩, ⟨some 1, 101⟩]).1.parsed_sources = [] ++ [101] :=
  ⟨(c1_picks_last_resolved ⟨[], [], [], []⟩ ⟨["ex"], "*"⟩
      [⟨some 2, 100⟩, ⟨some 1, 101⟩] ⟨some 1, 101⟩ rfl rfl).1,
   (c1_picks_last_resolved ⟨[], [], [], []⟩ ⟨["ex"], "*"⟩
      [⟨some 2, 100⟩, ⟨some 1, 101⟩] ⟨some 1, 101⟩ rfl rfl).2.2.2.1⟩


/-! ## Java fasterxml serialization module (`src/backend/java/src/fasterxml.rs`) -/

/-- The boxed Java numeric primitives `deserialize_method_for_type`
distinguishes (genco's `SHORT`, `LONG`, `INTEGER`, `FLOAT`, `DOUBLE`);
any other primitive is unsupported. -/
inductive JavaPrimitive where
  | short
  | long
  | integer
  | float
  | double
  | otherPrim
deriving DecidableEq, Repr

/-- The fragment of genco's `Java` type model the module inspects:
primitives, classes (module, name, generic arguments), and any other
token kind, which tuple deserialization rejects. -/
inductive JavaType where
  | primitive (p : JavaPrimitive)
  | classType (mod : String) (name : String) (arguments : List JavaType)
  | otherType

/-- `java.lang.String` — the `self.string` import of `Module::new`. -/
def stringType : JavaType := .classType "java.lang" "String" []

/-- The token-test expressions emitted before reading a field:
`!parser.nextToken().isNumeric()` and
`parser.nextToken() != JsonToken.VALUE_STRING`. -/
inductive TokenTest where
  | nextNotNumeric
  | nextNotString
deriving DecidableEq, Repr

/-- The value-reading expressions of the generated deserializer. -/
inductive Reader where
  | getShortValue
  | getLongValue
  | getIntegerValue
  | getFloatValue
  | getDoubleValue
  | getText
  | readValueAsClass (cls : JavaType)
  | readValueAsTypeRef (cls : JavaType)

/-- `Module::deserialize_method_for_type` (`fasterxml.rs` lines
151-226): for each supported type, the optional `(test, expected
token)` pair and the reading expression; `VALUE_NUMBER_INT` for
SHORT/LONG/INTEGER, `VALUE_NUMBER_FLOAT` for FLOAT/DOUBLE,
`VALUE_STRING` for `java.lang.String`, no check (plain `readValueAs`)
for every other class; other types are unsupported. -/
def deserialize_method_for_type (ty : JavaType) :
    Except String (Option (TokenTest × String) × Reader) :=
  match ty with
  | .primitive .short =>
    .ok (some (.nextNotNumeric, "VALUE_NUMBER_INT"), .getShortValue)
  | .primitive .long =>
    .ok (some (.nextNotNumeric, "VALUE_NUMBER_INT"), .getLongValue)
  | .primitive .integer =>
    .ok (some (.nextNotNumeric, "VALUE_NUMBER_INT"), .getIntegerValue)
  | .primitive .float =>
    .ok (some (.nextNotNumeric, "VALUE_NUMBER_FLOAT"), .getFloatValue)
  | .primitive .double =>
    .ok (some (.nextNotNumeric, "VALUE_NUMBER_FLOAT"), .getDoubleValue)
  | .primitive .otherPrim => .error "unsupported type"
  | .classType mod name arguments =>
    if mod = "java.lang" ∧ name = "String" ∧ arguments.isEmpty then
      .ok (some (.nextNotString, "VALUE_STRING"), .getText)
    else if arguments.isEmpty then
      .ok (none, .readValueAsClass (.classType mod name arguments))
    else
      .ok (none, .readValueAsTypeRef (.classType mod name arguments))
  | .otherType => .error "unsupported type"

/-- A tuple field as the deserializer sees it: variable name and type. -/
structure JField where
  var : String
  ty : JavaType

/-- The statements of the generated `deserialize` body.  Every check
statement throws `ctxt.wrongTokenException(parser, JsonToken.<thrown>,
null)` when it fails; `thrown` records the token named in the thrown
exception. -/
inductive Stmt where
  | checkCurrentNotStartArray (thrown : String)
  | checkField (test : TokenTest) (thrown : String)
  | assign (vr : String) (reader : Reader)
  | checkNextNotEndArray (thrown : String)
  | retNew (args : List String)

/-- The field loop of `Module::tuple_deserializer` (lines 289-315): per
field, the optional token check (throwing the expected token on
failure), then the assignment `final T v_<name> = <reader>;`; the
constructor arguments are collected in order. -/
def fieldStmts : List JField → Except String (List Stmt × List String)
  | [] => .ok ([], [])
  | f :: fs =>
    match deserialize_method_for_type f.ty with
    | .error e => .error e
    | .ok (tok, rd) =>
      match fieldStmts fs with
      | .error e => .error e
      | .ok (rest, args) =>
        .ok ((match tok with
              | some (t, expected) => [Stmt.checkField t expected]
              | none => []) ++ [Stmt.assign ("v_" ++ f.var) rd] ++ rest,
             ("v_" ++ f.var) :: args)

/-- `Module::tuple_deserializer` (lines 250-345): first the START_ARRAY
assertion on the current token, then the fields in declared order, then
the END_ARRAY assertion on the next token, then
`return new T(v_a, v_b, ...)`. -/
def tuple_deserializer (fields : List JField) : Except String (List Stmt) :=
  match fieldStmts fields with
  | .error e => .error e
  | .ok (stmts, args) =>
    .ok ([Stmt.checkCurrentNotStartArray "START_ARRAY"] ++ stmts
      ++ [Stmt.checkNextNotEndArray "END_ARRAY", Stmt.retNew args])

/-- Whether the tuple deserializer supports a type (numerics, strings,
and reference classes; other primitives and raw tokens are rejected). -/
def deserializable : JavaType → Bool
  | .primitive .otherPrim => false
  | .otherType => false
  | _ => true

/-- The per-type token check as the claim states it: a
`VALUE_NUMBER_INT` check for integral numerics, `VALUE_NUMBER_FLOAT`
for floating numerics, `VALUE_STRING` for strings, and no check for
other reference types.  (The test expressions are the code's; the claim
fixes only the expected token.) -/
def claimedCheckOpt : JavaType → Option (TokenTest × String)
  | .primitive .short => some (.nextNotNumeric, "VALUE_NUMBER_INT")
  | .primitive .long => some (.nextNotNumeric, "VALUE_NUMBER_INT")
  | .primitive .integer => some (.nextNotNumeric, "VALUE_NUMBER_INT")
  | .primitive .float => some (.nextNotNumeric, "VALUE_NUMBER_FLOAT")
  | .primitive .double => some (.nextNotNumeric, "VALUE_NUMBER_FLOAT")
  | .classType mod name arguments =>
    if mod = "java.lang" ∧ name = "String" ∧ arguments.isEmpty then
      some (.nextNotString, "VALUE_STRING")
    else
      none
  | _ => none

/-- The check statements induced by the claimed per-type check. -/
def claimedCheckStmts (ty : JavaType) : List Stmt :=
  match claimedCheckOpt ty with
  | some (t, expected) => [Stmt.checkField t expected]
  | none => []

theorem deserialize_method_check (ty : JavaType) (h : deserializable ty = true) :
    ∃ rd, deserialize_method_for_type ty = .ok (claimedCheckOpt ty, rd) := by
  cases ty with
  | primitive p =>
    cases p
    · exact ⟨.getShortValue, rfl⟩
    · exact ⟨.getLongValue, rfl⟩
    · exact ⟨.getIntegerValue, rfl⟩
    · exact ⟨.getFloatValue, rfl⟩
    · exact ⟨.getDoubleValue, rfl⟩
    · simp [deserializable] at h
  | classType mod name arguments =>
    by_cases hstr : mod = "java.lang" ∧ name = "String" ∧ arguments.isEmpty
    · exact ⟨.getText,
        by simp [deserialize_method_for_type, claimedCheckOpt, hstr]⟩
    · by_cases hargs : arguments.isEmpty
      · have hmn : ¬(mod = "java.lang" ∧ name = "String") :=
          fun hand => hstr ⟨hand.1, hand.2, hargs⟩
        exact ⟨.readValueAsClass (.classType mod name arguments),
          by simp [deserialize_method_for_type, claimedCheckOpt, hmn, hargs]⟩
      · exact ⟨.readValueAsTypeRef (.classType mod name arguments),
          by simp [deserialize_method_for_type, claimedCheckOpt, hstr, hargs]⟩
  | otherType => simp [deserializable] at h

theorem fieldStmts_ok (fields : List JField)
    (hok : ∀ f ∈ fields, deserializable f.ty = true) :
    ∃ readers : List Reader, readers.length = fields.length
      ∧ fieldStmts fields
          = .ok (((fields.zip readers).map (fun fr =>
                claimedCheckStmts fr.1.ty
                  ++ [Stmt.assign ("v_" ++ fr.1.var) fr.2])).flatten,
              fields.map (fun f => "v_" ++ f.var)) := by
  induction fields with
  | nil => exact ⟨[], rfl, rfl⟩
  | cons f fs ih =>
    obtain ⟨rd, hrd⟩ := deserialize_method_check f.ty (hok f (by simp))
    obtain ⟨rds, hlen, hrec⟩ := ih (fun g hg => hok g (List.mem_cons_of_mem _ hg))
    refine ⟨rd :: rds, by simp [hlen], ?_⟩
    rw [fieldStmts, hrd, hrec]
    simp [claimedCheckStmts]

/-- C8: for every tuple whose field types the module supports, the
generated deserializer is exactly: a START_ARRAY assertion on the
current token; then, per field in declared order, the claimed per-type
token check (integral numerics check VALUE_NUMBER_INT, floating
numerics VALUE_NUMBER_FLOAT, strings VALUE_STRING, other reference
types no check) followed by the read; then an END_ARRAY assertion on
the next token; then the constructor call with the fields in order.
Every check statement names the token it throws on failure. -/
theorem c8_tuple_deserializer_shape (fields : List JField)
    (hok : ∀ f ∈ fields, deserializable f.ty = true) :
    ∃ readers : List Reader, readers.length = fields.length
      ∧ tuple_deserializer fields
          = .ok ([Stmt.checkCurrentNotStartArray "START_ARRAY"]
              ++ ((fields.zip readers).map (fun fr =>
                    claimedCheckStmts fr.1.ty
                      ++ [Stmt.assign ("v_" ++ fr.1.var) fr.2])).flatten
              ++ [Stmt.checkNextNotEndArray "END_ARRAY",
                  Stmt.retNew (fields.map (fun f => "v_" ++ f.var))]) := by
  obtain ⟨readers, hlen, hfs⟩ := fieldStmts_ok fields hok
  exact ⟨readers, hlen, by rw [tuple_deserializer, hfs]⟩

/-- Witness for C8: the `Point { x: double, y: double }` tuple of the
spec's scenario 3: START_ARRAY, two numeric checks with their reads,
END_ARRAY, `new Point(v_x, v_y)`. -/
theorem c8_tuple_deserializer_shape_witness :
    ∃ readers : List Reader,
      readers.length = [JField.mk "x" (.primitive .double),
          JField.mk "y" (.primitive .double)].length
      ∧ tuple_deserializer [⟨"x", .primitive .double⟩, ⟨"y", .primitive .double⟩]
          = .ok ([Stmt.checkCurrentNotStartArray "START_ARRAY"]
              ++ (([JField.mk "x" (.primitive .double),
                    JField.mk "y" (.primitive .double)].zip readers).map (fun fr =>
                    claimedCheckStmts fr.1.ty
                      ++ [Stmt.assign ("v_" ++ fr.1.var) fr.2])).flatten
              ++ [Stmt.checkNextNotEndArray "END_ARRAY",
                  Stmt.retNew (["x", "y"].map (fun n => "v_" ++ n))]) :=
  c8_tuple_deserializer_shape
    [⟨"x", .primitive .double⟩, ⟨"y", .primitive .double⟩] (by decide)


/-- A sub-type as `interface_added` reads it: its list of wire names
(`sub_type.names`).  Sub-types are keyed by their discriminator key,
which is also the name of the generated inner class. -/
structure JSubType where
  names : List String
deriving DecidableEq, Repr

/-- The two class annotations `interface_added` attaches, plus a
catch-all for annotations attached by other hooks. -/
inductive JavaAnn where
  | typeInfo (args : List String)
  | subTypes (entries : List (String × String))
  | otherAnn (text : String)
deriving DecidableEq, Repr

/-- A Java class spec as the listener sees it: its name and the
annotations attached so far. -/
structure ClassSpec where
  name : String
  annotations : List JavaAnn
deriving DecidableEq, Repr

def isTypeInfo : JavaAnn → Bool
  | .typeInfo _ => true
  | _ => false

def isSubTypes : JavaAnn → Bool
  | .subTypes _ => true
  | _ => false

/-- `Module::interface_added` (`fasterxml.rs` lines 422-459): attach a
`JsonTypeInfo` annotation with `use=Id.NAME`, `include=As.PROPERTY`,
`property="type"`, then a `JsonSubTypes` annotation whose entries pair,
for every `(key, sub_type)` of the interface body and every wire name
in `sub_type.names`, the quoted wire name with
`<SpecName>.<key>.class`. -/
def interface_added (sub_types : List (String × JSubType)) (spec : ClassSpec) :
    ClassSpec :=
  let ti := JavaAnn.typeInfo
    ["use=JsonTypeInfo.Id.NAME", "include=JsonTypeInfo.As.PROPERTY",
     "property=\"type\""]
  let entries := (sub_types.map (fun p =>
      p.2.names.map (fun n => (n, spec.name ++ "." ++ p.1 ++ ".class")))).flatten
  { spec with annotations := spec.annotations ++ [ti, .subTypes entries] }

/-- C9: `interface_added` attaches exactly one `JsonTypeInfo`
annotation, whose discriminator property argument is `property="type"`,
and exactly one `JsonSubTypes` annotation whose entries are precisely
one per sub-type and wire name, pairing the wire name with the
sub-type's inner class `<SpecName>.<key>.class`. -/
theorem c9_interface_annotations (sub_types : List (String × JSubType))
    (spec : ClassSpec) :
    ∃ added, (interface_added sub_types spec).annotations
        = spec.annotations ++ added
      ∧ (added.filter isTypeInfo).length = 1
      ∧ (added.filter isSubTypes).length = 1
      ∧ (∃ args, JavaAnn.typeInfo args ∈ added ∧ "property=\"type\"" ∈ args)
      ∧ ∃ entries, JavaAnn.subTypes entries ∈ added
          ∧ (∀ key st, (key, st) ∈ sub_types → ∀ n ∈ st.names,
              (n, spec.name ++ "." ++ key ++ ".class") ∈ entries)
          ∧ (∀ pr ∈ entries, ∃ key st, (key, st) ∈ sub_types ∧ pr.1 ∈ st.names
              ∧ pr.2 = spec.name ++ "." ++ key ++ ".class") := by
  have hann : (interface_added sub_types spec).annotations
      = spec.annotations
        ++ [JavaAnn.typeInfo
              ["use=JsonTypeInfo.Id.NAME", "include=JsonTypeInfo.As.PROPERTY",
               "property=\"type\""],
            JavaAnn.subTypes ((sub_types.map (fun p =>
              p.2.names.map (fun n =>
                (n, spec.name ++ "." ++ p.1 ++ ".class")))).flatten)] := rfl
  refine ⟨[JavaAnn.typeInfo
      ["use=JsonTypeInfo.Id.NAME", "include=JsonTypeInfo.As.PROPERTY",
       "property=\"type\""],
    JavaAnn.subTypes ((sub_types.map (fun p =>
      p.2.names.map (fun n => (n, spec.name ++ "." ++ p.1 ++ ".class")))).flatten)],
    hann, rfl, rfl,
    ⟨["use=JsonTypeInfo.Id.NAME", "include=JsonTypeInfo.As.PROPERTY",
      "property=\"type\""], by simp, by simp⟩, ?_⟩
  refine ⟨(sub_types.map (fun p =>
      p.2.names.map (fun n => (n, spec.name ++ "." ++ p.1 ++ ".class")))).flatten,
    by simp, ?_, ?_⟩
  · intro key st hmem n hn
    refine List.mem_flatten.mpr ⟨st.names.map
        (fun n => (n, spec.name ++ "." ++ key ++ ".class")), ?_, ?_⟩
    · exact List.mem_map.mpr ⟨(key, st), hmem, rfl⟩
    · exact List.mem_map.mpr ⟨n, hn, rfl⟩
  · intro pr hpr
    obtain ⟨l, hl, hprl⟩ := List.mem_flatten.mp hpr
    obtain ⟨p, hp, hlp⟩ := List.mem_map.mp hl
    rw [← hlp] at hprl
    obtain ⟨n, hn, hnpr⟩ := List.mem_map.mp hprl
    exact ⟨p.1, p.2, hp, by rw [← hnpr]; exact hn, by rw [← hnpr]⟩

/-- Witness for C9 at the spec's scenario 4 interface `Shape` with
sub-types `Circle` and `Square`. -/
theorem c9_interface_annotations_witness :
    ∃ added, (interface_added [("Circle", ⟨["Circle"]⟩), ("Square", ⟨["Square"]⟩)]
          ⟨"Shape", []⟩).annotations
        = ([] : List JavaAnn) ++ added
      ∧ (added.filter isTypeInfo).length = 1
      ∧ (added.filter isSubTypes).length = 1
      ∧ (∃ args, JavaAnn.typeInfo args ∈ added ∧ "property=\"type\"" ∈ args)
      ∧ ∃ entries, JavaAnn.subTypes entries ∈ added
          ∧ (∀ key st, (key, st) ∈ [("Circle", JSubType.mk ["Circle"]),
                ("Square", ⟨["Square"]⟩)] → ∀ n ∈ st.names,
              (n, "Shape" ++ "." ++ key ++ ".class") ∈ entries)
          ∧ (∀ pr ∈ entries, ∃ key st,
              (key, st) ∈ [("Circle", JSubType.mk ["Circle"]),
                ("Square", ⟨["Square"]⟩)] ∧ pr.1 ∈ st.names
              ∧ pr.2 = "Shape" ++ "." ++ key ++ ".class") :=
  c9_interface_annotations [("Circle", ⟨["Circle"]⟩), ("Square", ⟨["Square"]⟩)]
    ⟨"Shape", []⟩

end Reproto
